import Mathlib

/-
Shallow embedding of the traversal-and-augmentation engine of
src/wildberries_category_scraper.py (class WildBerriesParser).

The category tree is a list of JSON objects; each object may or may not
carry the keys name, url, shard, query, id, childs.  We model a node as a
record of Option fields (None = key absent).  The flattened output the
Python code appends to flattened_catalogue contains two shapes of dict:
the per-category record built in traverse_json (keys name, url, shard,
query, level, id) and the augmented record built in node_json (keys
parent_name, name, level, id); we model them as the two constructors of
FlatRecord.  A run that raises an uncaught exception (the KeyError raised
by the f-string in node_json when the shard key is absent) is modelled by
Except.error (), since the exception escapes process_catalogue and the
accumulated list is lost.
-/

namespace WBScraper

inductive CategoryNode : Type where
  | mk (name : Option String) (url : Option String) (shard : Option Int)
       (query : Option String) (id : Option Int)
       (childs : Option (List CategoryNode)) : CategoryNode

def CategoryNode.name : CategoryNode → Option String
  | .mk n _ _ _ _ _ => n

def CategoryNode.url : CategoryNode → Option String
  | .mk _ u _ _ _ _ => u

def CategoryNode.shard : CategoryNode → Option Int
  | .mk _ _ s _ _ _ => s

def CategoryNode.query : CategoryNode → Option String
  | .mk _ _ _ q _ _ => q

def CategoryNode.id : CategoryNode → Option Int
  | .mk _ _ _ _ i _ => i

def CategoryNode.childs : CategoryNode → Option (List CategoryNode)
  | .mk _ _ _ _ _ c => c

inductive FlatRecord : Type where
  | cat (name : String) (url : String) (shard : Int) (query : String)
        (level : Int) (id : Int) : FlatRecord
  | aug (parent_name : String) (name : String) (level : Int) (id : Int) : FlatRecord
deriving DecidableEq

def FlatRecord.isCat : FlatRecord → Bool
  | .cat _ _ _ _ _ _ => true
  | .aug _ _ _ _ => false

def FlatRecord.level : FlatRecord → Int
  | .cat _ _ _ _ l _ => l
  | .aug _ _ l _ => l

/-
The facet ("filters") response of node_json.  The Python code accesses
response['data']['filters'][0]['name'] and ...['items'], every access
guarded by a bare except; we model the parts it touches with Option
fields (None = key absent or value of an unusable shape).
-/

structure FacetItem : Type where
  name : Option String
  id : Option Int
deriving DecidableEq

structure FacetFilter : Type where
  name : Option String
  items : Option (List FacetItem)
deriving DecidableEq

structure FacetData : Type where
  filters : Option (List FacetFilter)
deriving DecidableEq

structure FacetResponse : Type where
  data : Option FacetData
deriving DecidableEq

/-
Outcome of the one facet request of node_json (lines 155-165): the
request either raises ServerDisconnectedError, raises ContentTypeError,
or yields a decoded JSON document.
-/
inductive FetchResult : Type where
  | disconnected : FetchResult
  | contentTypeError : FetchResult
  | ok (response : FacetResponse) : FetchResult
deriving DecidableEq

/-
One item of the facet list (source lines 170-179): the dict literal
evaluates category['name'] (present at every call site), info['name'],
level and info['id']; a KeyError on info['name'] or info['id'] is caught
by the bare except and the item is skipped.
-/
def facetItemRecord (parentName : String) (level : Int) (it : FacetItem) :
    Option FlatRecord :=
  match it.name, it.id with
  | some n, some i => some (FlatRecord.aug parentName n level i)
  | _, _ => none

/-
Processing of the decoded facet response (source lines 167-183): every
failing access under the outer try (missing data, missing filters, empty
filter list, missing name of the first filter, missing items) is caught
by the bare outer except and yields no record; a first filter not labeled
with the category label also yields no record.
-/
def facetRecords (parentName : String) (level : Int) : FetchResult → List FlatRecord
  | .disconnected => []
  | .contentTypeError => []
  | .ok resp =>
    match resp.data with
    | none => []
    | some d =>
      match d.filters with
      | none => []
      | some [] => []
      | some (flt :: _) =>
        match flt.name with
        | none => []
        | some lbl =>
          if lbl = "Категория" then
            match flt.items with
            | none => []
            | some its => its.filterMap (facetItemRecord parentName level)
          else []

/-
WildBerriesParser.node_json (source lines 136-183).  Line 153 reads
category['name'] outside any try, and the URL f-string of line 156 reads
category['shard'] and category['query'] inside a try whose only handlers
are ServerDisconnectedError and ContentTypeError; a missing key there
raises an uncaught KeyError, modelled as Except.error ().  Otherwise the
function appends exactly the facetRecords of the fetched response.
-/
def node_json (fetch : CategoryNode → FetchResult) (c : CategoryNode)
    (level : Int) : Except Unit (List FlatRecord) :=
  match c.name, c.shard, c.query with
  | some nm, some _, some _ => .ok (facetRecords nm level (fetch c))
  | _, _, _ => .error ()

/-
The well-formedness check of the dict literal of traverse_json (source
lines 114-121): the literal evaluates category['name'], category['url'],
the guarded shard access, category['query'] and category['id']; a
KeyError on any of name, url, query, id is caught at line 123 and the
node is skipped.  shard alone is defaulted to 99999.
-/
def wfFields (c : CategoryNode) : Option (String × String × String × Int) :=
  match c.name, c.url, c.query, c.id with
  | some nm, some u, some q, some i => some (nm, u, q, i)
  | _, _, _, _ => none

/-
WildBerriesParser.traverse_json (source lines 92-134).  The Python code
mutates a shared flattened_catalogue list and a local level counter; the
counter is incremented on loop entry, restored on KeyError and at loop
end, so each sibling sees the same incoming value and a node at incoming
value level gets record level level+1.  We return the appended records
together with the list of categories for which node_json was invoked and
completed (the augmentation-call trace); an uncaught exception anywhere
discards the whole run (Except.error), as it escapes process_catalogue.
-/
def traverse_json (fetch : CategoryNode → FetchResult) :
    List CategoryNode → Int → Except Unit (List FlatRecord × List CategoryNode)
  | [], _ => .ok ([], [])
  | CategoryNode.mk none _ _ _ _ _ :: rest, level =>
    traverse_json fetch rest level
  | CategoryNode.mk (some _) none _ _ _ _ :: rest, level =>
    traverse_json fetch rest level
  | CategoryNode.mk (some _) (some _) _ none _ _ :: rest, level =>
    traverse_json fetch rest level
  | CategoryNode.mk (some _) (some _) _ (some _) none _ :: rest, level =>
    traverse_json fetch rest level
  | CategoryNode.mk (some nm) (some u) sh (some q) (some i) (some cs) :: rest, level =>
    match traverse_json fetch cs (level + 1) with
    | .error e => .error e
    | .ok sub =>
      match traverse_json fetch rest level with
      | .error e => .error e
      | .ok t =>
        .ok ((FlatRecord.cat nm u (sh.getD 99999) q (level + 1) i :: sub.1) ++ t.1,
          sub.2 ++ t.2)
  | CategoryNode.mk (some nm) (some u) sh (some q) (some i) none :: rest, level =>
    if i = 130090 then
      match traverse_json fetch rest level with
      | .error e => .error e
      | .ok t =>
        .ok (FlatRecord.cat nm u (sh.getD 99999) q (level + 1) i :: t.1, t.2)
    else
      match node_json fetch (CategoryNode.mk (some nm) (some u) sh (some q) (some i) none)
          (level + 2) with
      | .error e => .error e
      | .ok augs =>
        match traverse_json fetch rest level with
        | .error e => .error e
        | .ok t =>
          .ok ((FlatRecord.cat nm u (sh.getD 99999) q (level + 1) i :: augs) ++ t.1,
            CategoryNode.mk (some nm) (some u) sh (some q) (some i) none :: t.2)

/-
WildBerriesParser.process_catalogue (source lines 72-90): the engine is
entered on the whole tree with level = -1, so the direct children of the
synthetic root obtain record level 0.
-/
def process_catalogue (fetch : CategoryNode → FetchResult)
    (tree : List CategoryNode) : Except Unit (List FlatRecord × List CategoryNode) :=
  traverse_json fetch tree (-1)

/-
WildBerriesParser.download_current_catalogue (source lines 50-70): the
remote document is fetched exactly when the condition of lines 61-63
holds: the local cache file does not exist, or the calendar date of its
modification time compares GREATER than the run date; otherwise the
existing file is used.  Calendar dates are modelled as integer day
numbers, so a cache written on an earlier calendar day has a strictly
smaller mtimeDay than runDay.
-/
def shouldRedownload (cacheExists : Bool) (mtimeDay : Int) (runDay : Int) : Bool :=
  !cacheExists || decide (mtimeDay > runDay)

/-
Modelled from the spec: the pre-order traversal of the well-formed nodes
of the input tree in the input child ordering, a parent immediately
followed by its subtree.  Per the spec data-model invariants, a node
missing any of name, url, query, id contributes nothing and its subtree
is not visited, and the level of a record is the depth of its node, the
direct children of the synthetic root sitting at depth level+1 for the
incoming level argument (the engine is entered with level = -1, so the
top nodes obtain depth 0 and every nesting step adds exactly 1).  Each
visited node is returned together with its flat record.
-/
def preorderV : List CategoryNode → Int → List (CategoryNode × FlatRecord)
  | [], _ => []
  | CategoryNode.mk none _ _ _ _ _ :: rest, level => preorderV rest level
  | CategoryNode.mk (some _) none _ _ _ _ :: rest, level => preorderV rest level
  | CategoryNode.mk (some _) (some _) _ none _ _ :: rest, level => preorderV rest level
  | CategoryNode.mk (some _) (some _) _ (some _) none _ :: rest, level => preorderV rest level
  | CategoryNode.mk (some nm) (some u) sh (some q) (some i) (some cs) :: rest, level =>
    (CategoryNode.mk (some nm) (some u) sh (some q) (some i) (some cs),
        FlatRecord.cat nm u (sh.getD 99999) q (level + 1) i) ::
      (preorderV cs (level + 1) ++ preorderV rest level)
  | CategoryNode.mk (some nm) (some u) sh (some q) (some i) none :: rest, level =>
    (CategoryNode.mk (some nm) (some u) sh (some q) (some i) none,
        FlatRecord.cat nm u (sh.getD 99999) q (level + 1) i) ::
      preorderV rest level

/-
Modelled from the spec: the flat records of the pre-order traversal of
the well-formed nodes, in traversal order.
-/
def preorderFlat (cats : List CategoryNode) (level : Int) : List FlatRecord :=
  (preorderV cats level).map Prod.snd

/-
Modelled from the spec: the well-formed nodes the depth-first walk
visits, in pre-order.  The level argument does not change this list, see
preorderV_fst_level below.
-/
def vNodes (cats : List CategoryNode) : List CategoryNode :=
  (preorderV cats 0).map Prod.fst

/-
Modelled from the spec: the number of well-formed nodes the walk visits.
-/
def wfCount (cats : List CategoryNode) : Nat :=
  (vNodes cats).length

/-
Modelled from the spec: the depth, counted from the synthetic root with
the direct children of the root at depth 0 and every nesting level
adding exactly 1, of each well-formed visited node, in pre-order.
-/
def nodeDepths : List CategoryNode → Nat → List Nat
  | [], _ => []
  | CategoryNode.mk none _ _ _ _ _ :: rest, d => nodeDepths rest d
  | CategoryNode.mk (some _) none _ _ _ _ :: rest, d => nodeDepths rest d
  | CategoryNode.mk (some _) (some _) _ none _ _ :: rest, d => nodeDepths rest d
  | CategoryNode.mk (some _) (some _) _ (some _) none _ :: rest, d => nodeDepths rest d
  | CategoryNode.mk (some _) (some _) _ (some _) (some _) (some cs) :: rest, d =>
    d :: (nodeDepths cs (d + 1) ++ nodeDepths rest d)
  | CategoryNode.mk (some _) (some _) _ (some _) (some _) none :: rest, d =>
    d :: nodeDepths rest d

/-
A value occurring exactly once in a list, stated without a decidable
equality: the list splits around the value and neither part holds it.
-/
def occursOnce {α : Type} (a : α) (l : List α) : Prop :=
  ∃ pre post, l = pre ++ a :: post ∧ a ∉ pre ∧ a ∉ post

/- Concrete fixtures used by the witness theorems. -/

def wbItemX : FacetItem := ⟨some "X", some 9⟩

def wbItemBad : FacetItem := ⟨none, some 77⟩

def wbFilterCat : FacetFilter := ⟨some "Категория", some [wbItemBad, wbItemX]⟩

def wbFilterOther : FacetFilter := ⟨some "Цвет", some [wbItemX]⟩

def wbRespCat : FacetResponse := ⟨some ⟨some [wbFilterCat]⟩⟩

def wbRespOther : FacetResponse := ⟨some ⟨some [wbFilterOther]⟩⟩

def wbRespEmpty : FacetResponse := ⟨some ⟨some []⟩⟩

def wbFetchCat : CategoryNode → FetchResult := fun _ => .ok wbRespCat

def wbFetchDisc : CategoryNode → FetchResult := fun _ => .disconnected

def wbLeafB : CategoryNode :=
  .mk (some "B") (some "/b") (some 2) (some "q2") (some 2) none

def wbNodeA : CategoryNode :=
  .mk (some "A") (some "/a") (some 1) (some "q1") (some 1) (some [wbLeafB])

def wbTreeAB : List CategoryNode := [wbNodeA]

def wbFetchInj : CategoryNode → FetchResult := fun c =>
  if c.id = some 2 then .disconnected else .ok wbRespCat

def wbFetchCat2 : CategoryNode → FetchResult := fun c =>
  if c.id = some 999 then .disconnected else .ok wbRespCat

def wbLeafNoShard : CategoryNode :=
  .mk (some "C") (some "/c") none (some "qc") (some 3) none

def wbNodeNoName : CategoryNode :=
  .mk none (some "/d") (some 4) (some "qd") (some 4) (some [wbLeafB])

def wbLeafRedirect : CategoryNode :=
  .mk (some "R") (some "/r") (some 7) (some "qr") (some 130090) none

def wbLeafEmptyChilds : CategoryNode :=
  .mk (some "E") (some "/e") (some 8) (some "qe") (some 6) (some [])

/-
Induction principle following the shape of the tree: to prove a property
of every forest it is enough to prove it for the empty forest and for a
forest headed by an arbitrary node, assuming it for the childs list of
that node and for the remaining siblings.
-/
theorem forest_ind (P : List CategoryNode → Prop) (h0 : P [])
    (h1 : ∀ nm u sh q i ch rest,
      (∀ cs, ch = some cs → P cs) → P rest →
        P (CategoryNode.mk nm u sh q i ch :: rest)) :
    ∀ cats, P cats := by
  have key : ∀ n (cats : List CategoryNode), sizeOf cats ≤ n → P cats := by
    intro n
    induction n with
    | zero =>
      intro cats hle
      cases cats with
      | nil => exact h0
      | cons c rest => simp at hle
    | succ n ih =>
      intro cats hle
      cases cats with
      | nil => exact h0
      | cons c rest =>
        cases c with
        | mk nm u sh q i ch =>
          apply h1
          · intro cs hch
            subst hch
            apply ih
            simp at hle
            omega
          · apply ih
            simp at hle
            omega
  exact fun cats => key (sizeOf cats) cats le_rfl

/-
Every record facetRecords produces is an augmented record carrying the
parent name and the level it was given.
-/
theorem mem_facetRecords {parentName : String} {lvl : Int} {fr : FetchResult}
    {r : FlatRecord} (h : r ∈ facetRecords parentName lvl fr) :
    ∃ n2 i2, r = FlatRecord.aug parentName n2 lvl i2 := by
  cases fr with
  | disconnected => simp [facetRecords] at h
  | contentTypeError => simp [facetRecords] at h
  | ok resp =>
    obtain ⟨dta⟩ := resp
    cases dta with
    | none => simp [facetRecords] at h
    | some fd =>
      obtain ⟨fl⟩ := fd
      cases fl with
      | none => simp [facetRecords] at h
      | some fs =>
        cases fs with
        | nil => simp [facetRecords] at h
        | cons flt fs2 =>
          obtain ⟨fname, fitems⟩ := flt
          cases fname with
          | none => simp [facetRecords] at h
          | some lbl =>
            by_cases hl : lbl = "Категория"
            · subst hl
              cases fitems with
              | none => simp [facetRecords] at h
              | some its =>
                simp [facetRecords, List.mem_filterMap] at h
                obtain ⟨it, _, hrec⟩ := h
                obtain ⟨inm, iid⟩ := it
                cases inm <;> cases iid <;>
                  simp [facetItemRecord] at hrec
                exact ⟨_, _, hrec.symm⟩
            · simp [facetRecords, hl] at h

/- The augmented records contribute nothing to the isCat restriction. -/
theorem filter_isCat_facetRecords (parentName : String) (lvl : Int)
    (fr : FetchResult) :
    (facetRecords parentName lvl fr).filter FlatRecord.isCat = [] := by
  rw [List.filter_eq_nil_iff]
  intro r hr
  obtain ⟨n2, i2, rfl⟩ := mem_facetRecords hr
  simp [FlatRecord.isCat]

/- A node missing a required field contributes nothing to the walk. -/
theorem traverse_cons_malformed {c : CategoryNode} (h : wfFields c = none)
    (fetch : CategoryNode → FetchResult) (rest : List CategoryNode)
    (level : Int) :
    traverse_json fetch (c :: rest) level = traverse_json fetch rest level := by
  obtain ⟨nm, u, sh, q, i, ch⟩ := c
  cases nm <;> cases u <;> cases q <;> cases i <;>
    simp_all [wfFields, CategoryNode.name, CategoryNode.url,
      CategoryNode.query, CategoryNode.id, traverse_json]

/-
The walk over a concatenation of forests is the walk of both parts
combined, the records and traces appended, with any error of the left
part taking precedence.
-/
theorem traverse_append (fetch : CategoryNode → FetchResult) :
    ∀ xs ys level,
      traverse_json fetch (xs ++ ys) level =
        match traverse_json fetch xs level with
        | .error e => .error e
        | .ok a =>
          match traverse_json fetch ys level with
          | .error e => .error e
          | .ok b => .ok (a.1 ++ b.1, a.2 ++ b.2) := by
  intro xs
  induction xs with
  | nil =>
    intro ys level
    simp [traverse_json]
    cases traverse_json fetch ys level <;> simp
  | cons c rest ih =>
    intro ys level
    obtain ⟨nm, u, sh, q, i, ch⟩ := c
    cases nm <;> [skip; cases u] <;> [skip; skip; cases q] <;>
      [skip; skip; skip; cases i]
    case none => simp [traverse_json, ih]
    case some.none => simp [traverse_json, ih]
    case some.some.none => simp [traverse_json, ih]
    case some.some.some.none => simp [traverse_json, ih]
    case some.some.some.some nm u q i =>
      cases ch with
      | some cs =>
        simp only [List.cons_append, traverse_json]
        cases traverse_json fetch cs (level + 1) with
        | error e => simp
        | ok sub =>
          rw [ih]
          cases traverse_json fetch rest level with
          | error e => simp
          | ok t =>
            cases traverse_json fetch ys level <;> simp
      | none =>
        by_cases hi : i = 130090
        · subst hi
          simp only [List.cons_append, traverse_json, if_pos]
          rw [ih]
          cases traverse_json fetch rest level with
          | error e => simp
          | ok t =>
            cases traverse_json fetch ys level <;> simp
        · simp only [List.cons_append, traverse_json, if_neg hi]
          cases node_json fetch
              (CategoryNode.mk (some nm) (some u) sh (some q) (some i) none)
              (level + 2) with
          | error e => simp
          | ok augs =>
            rw [ih]
            cases traverse_json fetch rest level with
            | error e => simp
            | ok t =>
              cases traverse_json fetch ys level <;> simp

/-
The list of visited well-formed nodes does not depend on the incoming
level, which only feeds the records.
-/
theorem preorderV_fst_level :
    ∀ cats (l l2 : Int),
      (preorderV cats l).map Prod.fst = (preorderV cats l2).map Prod.fst := by
  refine forest_ind
    (fun cats => ∀ (l l2 : Int),
      (preorderV cats l).map Prod.fst = (preorderV cats l2).map Prod.fst)
    ?_ ?_
  · intro l l2
    simp [preorderV]
  · intro nm u sh q i ch rest ihc ihr l l2
    cases nm <;> [skip; cases u] <;> [skip; skip; cases q] <;>
      [skip; skip; skip; cases i]
    case none => simp [preorderV, ihr l l2]
    case some.none => simp [preorderV, ihr l l2]
    case some.some.none => simp [preorderV, ihr l l2]
    case some.some.some.none => simp [preorderV, ihr l l2]
    case some.some.some.some =>
      cases ch with
      | some cs => simp [preorderV, ihc cs rfl (l + 1) (l2 + 1), ihr l l2]
      | none => simp [preorderV, ihr l l2]

/- Unfolding of vNodes at a well-formed node with a childs list. -/
theorem vNodes_cons_childs (nm u : String) (sh : Option Int) (q : String)
    (i : Int) (cs rest : List CategoryNode) :
    vNodes (CategoryNode.mk (some nm) (some u) sh (some q) (some i) (some cs) :: rest) =
      CategoryNode.mk (some nm) (some u) sh (some q) (some i) (some cs) ::
        (vNodes cs ++ vNodes rest) := by
  simp [vNodes, preorderV]
  exact preorderV_fst_level cs 1 0

/- Unfolding of vNodes at a well-formed node with no childs key. -/
theorem vNodes_cons_leaf (nm u : String) (sh : Option Int) (q : String)
    (i : Int) (rest : List CategoryNode) :
    vNodes (CategoryNode.mk (some nm) (some u) sh (some q) (some i) none :: rest) =
      CategoryNode.mk (some nm) (some u) sh (some q) (some i) none ::
        vNodes rest := by
  simp [vNodes, preorderV]

/- A node missing a required field is not visited. -/
theorem vNodes_cons_malformed {c : CategoryNode} (h : wfFields c = none)
    (rest : List CategoryNode) :
    vNodes (c :: rest) = vNodes rest := by
  obtain ⟨nm, u, sh, q, i, ch⟩ := c
  cases nm <;> cases u <;> cases q <;> cases i <;>
    simp_all [wfFields, CategoryNode.name, CategoryNode.url,
      CategoryNode.query, CategoryNode.id, vNodes, preorderV]

/-
Core refinement fact behind C1: on any completing run, the records of
the walk restricted to the non-augmented ones are exactly the spec-side
pre-order records of the visited well-formed nodes.
-/
theorem traverse_filter_eq_preorder (fetch : CategoryNode → FetchResult) :
    ∀ cats (level : Int) out,
      traverse_json fetch cats level = .ok out →
      out.1.filter FlatRecord.isCat = preorderFlat cats level := by
  refine forest_ind
    (fun cats => ∀ (level : Int) out,
      traverse_json fetch cats level = .ok out →
      out.1.filter FlatRecord.isCat = preorderFlat cats level)
    ?_ ?_
  · intro level out h
    simp [traverse_json] at h
    simp [← h, preorderFlat, preorderV]
  · intro nm u sh q i ch rest ihc ihr level out h
    cases nm <;> [skip; cases u] <;> [skip; skip; cases q] <;>
      [skip; skip; skip; cases i]
    case none =>
      simp only [traverse_json] at h
      simpa [preorderFlat, preorderV] using ihr level out h
    case some.none =>
      simp only [traverse_json] at h
      simpa [preorderFlat, preorderV] using ihr level out h
    case some.some.none =>
      simp only [traverse_json] at h
      simpa [preorderFlat, preorderV] using ihr level out h
    case some.some.some.none =>
      simp only [traverse_json] at h
      simpa [preorderFlat, preorderV] using ihr level out h
    case some.some.some.some nm u q i =>
      cases ch with
      | some cs =>
        simp only [traverse_json] at h
        cases hsub : traverse_json fetch cs (level + 1) with
        | error e => simp [hsub] at h
        | ok sub =>
          cases ht : traverse_json fetch rest level with
          | error e => simp [hsub, ht] at h
          | ok t =>
            simp [hsub, ht] at h
            rw [← h]
            simp [List.filter_append, FlatRecord.isCat, preorderFlat, preorderV,
              ihc cs rfl (level + 1) sub hsub, ihr level t ht]
      | none =>
        by_cases hi : i = 130090
        · subst hi
          simp only [traverse_json, if_pos] at h
          cases ht : traverse_json fetch rest level with
          | error e => simp [ht] at h
          | ok t =>
            simp [ht] at h
            rw [← h]
            simp [FlatRecord.isCat, preorderFlat, preorderV, ihr level t ht]
        · simp only [traverse_json, if_neg hi] at h
          cases hnj : node_json fetch
              (CategoryNode.mk (some nm) (some u) sh (some q) (some i) none)
              (level + 2) with
          | error e => simp [hnj] at h
          | ok augs =>
            cases ht : traverse_json fetch rest level with
            | error e => simp [hnj, ht] at h
            | ok t =>
              simp [hnj, ht] at h
              rw [← h]
              cases sh with
              | none =>
                simp [node_json, CategoryNode.name, CategoryNode.shard,
                  CategoryNode.query] at hnj
              | some s =>
                simp [node_json, CategoryNode.name, CategoryNode.shard,
                  CategoryNode.query] at hnj
                subst hnj
                simp [List.filter_append, FlatRecord.isCat, preorderFlat,
                  preorderV, filter_isCat_facetRecords, ihr level t ht]

/- The pre-order record list has one record per visited well-formed node. -/
theorem preorderFlat_length (cats : List CategoryNode) (l : Int) :
    (preorderFlat cats l).length = wfCount cats := by
  have h := congrArg List.length (preorderV_fst_level cats l 0)
  simp only [List.length_map] at h
  simp [preorderFlat, wfCount, vNodes, h]

/-
The levels of the pre-order records are the node depths counted from 0
at the direct children of the synthetic root: entering at level l with
l + 1 = d, every record of depth-d nodes carries level d.
-/
theorem FlatRecord.level_cat (nm u : String) (s : Int) (q : String)
    (l i : Int) : (FlatRecord.cat nm u s q l i).level = l := rfl

theorem FlatRecord.level_aug (p nm : String) (l i : Int) :
    (FlatRecord.aug p nm l i).level = l := rfl

theorem preorderV_levels :
    ∀ cats (d : Nat) (l : Int), l + 1 = (d : Int) →
      (preorderV cats l).map (fun p => FlatRecord.level p.2) =
        (nodeDepths cats d).map Int.ofNat := by
  refine forest_ind
    (fun cats => ∀ (d : Nat) (l : Int), l + 1 = (d : Int) →
      (preorderV cats l).map (fun p => FlatRecord.level p.2) =
        (nodeDepths cats d).map Int.ofNat)
    ?_ ?_
  · intro d l hl
    simp only [preorderV, nodeDepths, List.map_nil]
  · intro nm u sh q i ch rest ihc ihr d l hl
    cases nm <;> [skip; cases u] <;> [skip; skip; cases q] <;>
      [skip; skip; skip; cases i]
    case none =>
      simp only [preorderV, nodeDepths]
      exact ihr d l hl
    case some.none =>
      simp only [preorderV, nodeDepths]
      exact ihr d l hl
    case some.some.none =>
      simp only [preorderV, nodeDepths]
      exact ihr d l hl
    case some.some.some.none =>
      simp only [preorderV, nodeDepths]
      exact ihr d l hl
    case some.some.some.some =>
      have hl2 : (l + 1) + 1 = ((d + 1 : Nat) : Int) := by push_cast; omega
      have hd : l + 1 = Int.ofNat d := by rw [hl]; rfl
      cases ch with
      | some cs =>
        simp only [preorderV, nodeDepths, List.map_cons, List.map_append,
          FlatRecord.level_cat]
        rw [ihc cs rfl (d + 1) (l + 1) hl2, ihr d l hl, hd]
      | none =>
        simp only [preorderV, nodeDepths, List.map_cons,
          FlatRecord.level_cat]
        rw [ihr d l hl, hd]

/-
The levels of the pre-order records are the node depths counted from 0
at the direct children of the synthetic root, for the start level -1 the
engine is entered with.
-/
theorem preorderFlat_levels_root (tree : List CategoryNode) :
    (preorderFlat tree (-1)).map FlatRecord.level =
      (nodeDepths tree 0).map Int.ofNat := by
  rw [preorderFlat, List.map_map]
  exact preorderV_levels tree 0 (-1) (by omega)

/- node_json consults the fetcher only at the node itself. -/
theorem node_json_congr {f g : CategoryNode → FetchResult} {c : CategoryNode}
    (h : f c = g c) (lvl : Int) : node_json f c lvl = node_json g c lvl := by
  obtain ⟨nm, u, sh, q, i, ch⟩ := c
  cases nm <;> cases sh <;> cases q <;>
    simp [node_json, CategoryNode.name, CategoryNode.shard,
      CategoryNode.query, h]

/-
Core fact behind C8: the walk consults the fetcher only at visited
well-formed nodes, so two stubs agreeing there produce identical runs.
-/
theorem traverse_fetch_congr (f g : CategoryNode → FetchResult) :
    ∀ cats, (∀ c ∈ vNodes cats, f c = g c) →
      ∀ level, traverse_json f cats level = traverse_json g cats level := by
  refine forest_ind
    (fun cats => (∀ c ∈ vNodes cats, f c = g c) →
      ∀ level, traverse_json f cats level = traverse_json g cats level)
    ?_ ?_
  · intro _ level
    simp [traverse_json]
  · intro nm u sh q i ch rest ihc ihr hag level
    cases nm <;> [skip; cases u] <;> [skip; skip; cases q] <;>
      [skip; skip; skip; cases i]
    case none =>
      rw [vNodes_cons_malformed (by simp [wfFields, CategoryNode.name])] at hag
      simp only [traverse_json]
      exact ihr hag level
    case some.none =>
      rw [vNodes_cons_malformed
        (by simp [wfFields, CategoryNode.name, CategoryNode.url])] at hag
      simp only [traverse_json]
      exact ihr hag level
    case some.some.none =>
      rw [vNodes_cons_malformed
        (by simp [wfFields, CategoryNode.name, CategoryNode.url,
          CategoryNode.query])] at hag
      simp only [traverse_json]
      exact ihr hag level
    case some.some.some.none =>
      rw [vNodes_cons_malformed
        (by simp [wfFields, CategoryNode.name, CategoryNode.url,
          CategoryNode.query, CategoryNode.id])] at hag
      simp only [traverse_json]
      exact ihr hag level
    case some.some.some.some nm u q i =>
      cases ch with
      | some cs =>
        rw [vNodes_cons_childs] at hag
        have hagc : ∀ c ∈ vNodes cs, f c = g c := by
          intro c hc
          exact hag c (by simp [hc])
        have hagr : ∀ c ∈ vNodes rest, f c = g c := by
          intro c hc
          exact hag c (by simp [hc])
        simp only [traverse_json]
        rw [ihc cs rfl hagc (level + 1), ihr hagr level]
      | none =>
        rw [vNodes_cons_leaf] at hag
        have hagr : ∀ c ∈ vNodes rest, f c = g c := by
          intro c hc
          exact hag c (by simp [hc])
        by_cases hi : i = 130090
        · subst hi
          simp only [traverse_json, if_pos]
          rw [ihr hagr level]
        · simp only [traverse_json, if_neg hi]
          rw [node_json_congr (hag _ (by simp)) (level + 2), ihr hagr level]

theorem occursOnce_nil {α : Type} (a : α) : ¬ occursOnce a [] := by
  rintro ⟨pre, post, heq, _, _⟩
  cases pre <;> simp at heq

theorem occursOnce_cons_split {α : Type} {a b : α} {t : List α}
    (h : occursOnce a (b :: t)) :
    (b = a ∧ a ∉ t) ∨ (b ≠ a ∧ occursOnce a t) := by
  obtain ⟨pre, post, heq, hpre, hpost⟩ := h
  cases pre with
  | nil =>
    simp at heq
    obtain ⟨hba, ht⟩ := heq
    exact Or.inl ⟨hba, ht ▸ hpost⟩
  | cons p pre2 =>
    simp at heq
    obtain ⟨hbp, ht⟩ := heq
    simp at hpre
    refine Or.inr ⟨?_, pre2, post, ht, hpre.2, hpost⟩
    rw [hbp]
    exact fun hcon => hpre.1 hcon.symm

theorem occursOnce_cons_of_ne {α : Type} {a b : α} {t : List α}
    (hne : b ≠ a) (h : occursOnce a t) : occursOnce a (b :: t) := by
  obtain ⟨pre, post, heq, hpre, hpost⟩ := h
  refine ⟨b :: pre, post, by simp [heq], ?_, hpost⟩
  simp
  exact ⟨fun hcon => hne hcon.symm, hpre⟩

theorem occursOnce_cons_self {α : Type} {a b : α} {t : List α}
    (hba : b = a) (hat : a ∉ t) : occursOnce a (b :: t) :=
  ⟨[], t, by simp [hba], by simp, hat⟩

theorem occursOnce_append_split {α : Type} {a : α} :
    ∀ {h t : List α}, occursOnce a (h ++ t) →
      (occursOnce a h ∧ a ∉ t) ∨ (a ∉ h ∧ occursOnce a t) := by
  intro h
  induction h with
  | nil =>
    intro t hocc
    simp at hocc
    exact Or.inr ⟨by simp, hocc⟩
  | cons b h2 ih =>
    intro t hocc
    rw [List.cons_append] at hocc
    rcases occursOnce_cons_split hocc with ⟨hba, hnot⟩ | ⟨hne, hocc2⟩
    · simp at hnot
      exact Or.inl ⟨occursOnce_cons_self hba hnot.1, hnot.2⟩
    · rcases ih hocc2 with ⟨hh, hnt⟩ | ⟨hnh, ht⟩
      · exact Or.inl ⟨occursOnce_cons_of_ne hne hh, hnt⟩
      · refine Or.inr ⟨?_, ht⟩
        simp
        exact ⟨fun hcon => hne hcon.symm, hnh⟩

/-
Core fact behind C7.  Fix a well-formed childless node c0 whose id is
not the excluded one, a fetcher f, and a fetcher g that reports a
transient disconnection at c0 and agrees with f on every other visited
node.  If the walk visits c0 exactly once and the f-run completes, then
the g-run completes as well and its records are those of the f-run with
exactly the augmented block of c0 removed: the f-records split as
P ++ A ++ S with A consisting only of augmented records carrying the c0
name as parent, and the g-records are P ++ S.
-/
theorem traverse_inject_one
    (f g : CategoryNode → FetchResult) (nm0 u0 : String) (s0 : Int)
    (q0 : String) (i0 : Int) (c0 : CategoryNode)
    (hc0 : c0 = CategoryNode.mk (some nm0) (some u0) (some s0) (some q0) (some i0) none)
    (hi0 : i0 ≠ 130090) (hg0 : g c0 = .disconnected) :
    ∀ cats (level : Int) o1 o2,
      occursOnce c0 (vNodes cats) →
      (∀ c ∈ vNodes cats, c ≠ c0 → g c = f c) →
      traverse_json f cats level = .ok (o1, o2) →
      ∃ P A S callsG,
        o1 = P ++ A ++ S ∧
        traverse_json g cats level = .ok (P ++ S, callsG) ∧
        ∀ r ∈ A, ∃ n2 i2 lv, r = FlatRecord.aug nm0 n2 lv i2 := by
  subst hc0
  refine forest_ind
    (fun cats => ∀ (level : Int) o1 o2,
      occursOnce (CategoryNode.mk (some nm0) (some u0) (some s0) (some q0) (some i0) none)
        (vNodes cats) →
      (∀ c ∈ vNodes cats,
        c ≠ CategoryNode.mk (some nm0) (some u0) (some s0) (some q0) (some i0) none →
          g c = f c) →
      traverse_json f cats level = .ok (o1, o2) →
      ∃ P A S callsG,
        o1 = P ++ A ++ S ∧
        traverse_json g cats level = .ok (P ++ S, callsG) ∧
        ∀ r ∈ A, ∃ n2 i2 lv, r = FlatRecord.aug nm0 n2 lv i2)
    ?_ ?_
  · intro level o1 o2 hocc _ _
    rw [show vNodes [] = [] from by simp [vNodes, preorderV]] at hocc
    exact absurd hocc (occursOnce_nil _)
  · intro nm u sh q i ch rest ihc ihr level o1 o2 hocc hag hrun
    cases nm <;> [skip; cases u] <;> [skip; skip; cases q] <;>
      [skip; skip; skip; cases i]
    case none =>
      have hwf : wfFields (CategoryNode.mk none u sh q i ch) = none := by
        simp [wfFields, CategoryNode.name]
      rw [vNodes_cons_malformed hwf] at hocc hag
      rw [traverse_cons_malformed hwf f rest level] at hrun
      rw [traverse_cons_malformed hwf g rest level]
      exact ihr level o1 o2 hocc hag hrun
    case some.none nmv =>
      have hwf : wfFields (CategoryNode.mk (some nmv) none sh q i ch) = none := by
        simp [wfFields, CategoryNode.name, CategoryNode.url]
      rw [vNodes_cons_malformed hwf] at hocc hag
      rw [traverse_cons_malformed hwf f rest level] at hrun
      rw [traverse_cons_malformed hwf g rest level]
      exact ihr level o1 o2 hocc hag hrun
    case some.some.none nmv uv =>
      have hwf : wfFields (CategoryNode.mk (some nmv) (some uv) sh none i ch) = none := by
        simp [wfFields, CategoryNode.name, CategoryNode.url, CategoryNode.query]
      rw [vNodes_cons_malformed hwf] at hocc hag
      rw [traverse_cons_malformed hwf f rest level] at hrun
      rw [traverse_cons_malformed hwf g rest level]
      exact ihr level o1 o2 hocc hag hrun
    case some.some.some.none nmv uv qv =>
      have hwf : wfFields
          (CategoryNode.mk (some nmv) (some uv) sh (some qv) none ch) = none := by
        simp [wfFields, CategoryNode.name, CategoryNode.url, CategoryNode.query,
          CategoryNode.id]
      rw [vNodes_cons_malformed hwf] at hocc hag
      rw [traverse_cons_malformed hwf f rest level] at hrun
      rw [traverse_cons_malformed hwf g rest level]
      exact ihr level o1 o2 hocc hag hrun
    case some.some.some.some nm u q i =>
      cases ch with
      | some cs =>
        rw [vNodes_cons_childs] at hocc hag
        rcases occursOnce_cons_split hocc with ⟨hceq, _⟩ | ⟨_, hocc2⟩
        · simp [CategoryNode.mk.injEq] at hceq
        simp only [traverse_json] at hrun
        cases hsub : traverse_json f cs (level + 1) with
        | error e => simp [hsub] at hrun
        | ok sub =>
          cases ht : traverse_json f rest level with
          | error e => simp [hsub, ht] at hrun
          | ok t =>
            simp only [hsub, ht, Except.ok.injEq, Prod.mk.injEq] at hrun
            obtain ⟨ho1, ho2⟩ := hrun
            rcases occursOnce_append_split hocc2 with ⟨hoccC, hnotR⟩ | ⟨hnotC, hoccR⟩
            · have hagC : ∀ c ∈ vNodes cs,
                  c ≠ CategoryNode.mk (some nm0) (some u0) (some s0) (some q0) (some i0) none →
                    g c = f c := by
                intro c hc hne
                exact hag c (by simp [hc]) hne
              obtain ⟨P2, A, S2, cg2, hsplit, hgsub, hA⟩ :=
                ihc cs rfl (level + 1) sub.1 sub.2 hoccC hagC (by rw [hsub])
              have hgr : traverse_json g rest level = traverse_json f rest level := by
                refine traverse_fetch_congr g f rest ?_ level
                intro c hc
                refine hag c (by simp [hc]) ?_
                intro hceq
                exact hnotR (hceq ▸ hc)
              refine ⟨FlatRecord.cat nm u (sh.getD 99999) q (level + 1) i :: P2,
                A, S2 ++ t.1, cg2 ++ t.2, ?_, ?_, hA⟩
              · rw [← ho1, hsplit]
                simp
              · simp only [traverse_json]
                rw [show traverse_json g cs (level + 1) = .ok (P2 ++ S2, cg2) from hgsub,
                  hgr, ht]
                simp
            · have hgsub : traverse_json g cs (level + 1) =
                  traverse_json f cs (level + 1) := by
                refine traverse_fetch_congr g f cs ?_ (level + 1)
                intro c hc
                refine hag c (by simp [hc]) ?_
                intro hceq
                exact hnotC (hceq ▸ hc)
              have hagR : ∀ c ∈ vNodes rest,
                  c ≠ CategoryNode.mk (some nm0) (some u0) (some s0) (some q0) (some i0) none →
                    g c = f c := by
                intro c hc hne
                exact hag c (by simp [hc]) hne
              obtain ⟨P2, A, S2, cg2, hsplit, hgrest, hA⟩ :=
                ihr level t.1 t.2 hoccR hagR (by rw [ht])
              refine ⟨(FlatRecord.cat nm u (sh.getD 99999) q (level + 1) i :: sub.1) ++ P2,
                A, S2, sub.2 ++ cg2, ?_, ?_, hA⟩
              · rw [← ho1, hsplit]
                simp
              · simp only [traverse_json]
                rw [hgsub, hsub,
                  show traverse_json g rest level = .ok (P2 ++ S2, cg2) from hgrest]
                simp
      | none =>
        rw [vNodes_cons_leaf] at hocc hag
        rcases occursOnce_cons_split hocc with ⟨hceq, hnotR⟩ | ⟨hcne, hoccR⟩
        · simp only [CategoryNode.mk.injEq, Option.some.injEq] at hceq
          obtain ⟨hnm, hu, hsh, hq, hi, -⟩ := hceq
          rw [hnm, hu, hsh, hq, hi] at hrun hag ⊢
          simp only [traverse_json, if_neg hi0] at hrun
          have hnjf : node_json f
              (CategoryNode.mk (some nm0) (some u0) (some s0) (some q0) (some i0) none)
              (level + 2) =
              .ok (facetRecords nm0 (level + 2)
                (f (CategoryNode.mk (some nm0) (some u0) (some s0) (some q0) (some i0) none))) := by
            simp [node_json, CategoryNode.name, CategoryNode.shard, CategoryNode.query]
          rw [hnjf] at hrun
          cases ht : traverse_json f rest level with
          | error e => simp [ht] at hrun
          | ok t =>
            simp only [ht, Except.ok.injEq, Prod.mk.injEq] at hrun
            obtain ⟨ho1, ho2⟩ := hrun
            have hgr : traverse_json g rest level = traverse_json f rest level := by
              refine traverse_fetch_congr g f rest ?_ level
              intro c hc
              refine hag c (by simp [hc]) ?_
              intro hceq
              exact hnotR (hceq ▸ hc)
            refine ⟨[FlatRecord.cat nm0 u0 ((some s0).getD 99999) q0 (level + 1) i0],
              facetRecords nm0 (level + 2)
                (f (CategoryNode.mk (some nm0) (some u0) (some s0) (some q0) (some i0) none)),
              t.1,
              CategoryNode.mk (some nm0) (some u0) (some s0) (some q0) (some i0) none :: t.2,
              ?_, ?_, ?_⟩
            · rw [← ho1]
              simp
            · simp only [traverse_json, if_neg hi0]
              have hnjg : node_json g
                  (CategoryNode.mk (some nm0) (some u0) (some s0) (some q0) (some i0) none)
                  (level + 2) = .ok [] := by
                simp [node_json, CategoryNode.name, CategoryNode.shard,
                  CategoryNode.query, hg0, facetRecords]
              simp [hnjg, hgr, ht]
            · intro r hr
              obtain ⟨n2, i2, rfl⟩ := mem_facetRecords hr
              exact ⟨n2, i2, level + 2, rfl⟩
        · have hagR : ∀ c ∈ vNodes rest,
              c ≠ CategoryNode.mk (some nm0) (some u0) (some s0) (some q0) (some i0) none →
                g c = f c := by
            intro c hc hne
            exact hag c (by simp [hc]) hne
          have hgc : g (CategoryNode.mk (some nm) (some u) sh (some q) (some i) none) =
              f (CategoryNode.mk (some nm) (some u) sh (some q) (some i) none) :=
            hag _ (by simp) hcne
          by_cases hi : i = 130090
          · subst hi
            simp only [traverse_json, if_pos] at hrun
            cases ht : traverse_json f rest level with
            | error e => simp [ht] at hrun
            | ok t =>
              simp only [ht, Except.ok.injEq, Prod.mk.injEq] at hrun
              obtain ⟨ho1, ho2⟩ := hrun
              obtain ⟨P2, A, S2, cg2, hsplit, hgrest, hA⟩ :=
                ihr level t.1 t.2 hoccR hagR (by rw [ht])
              refine ⟨FlatRecord.cat nm u (sh.getD 99999) q (level + 1) 130090 :: P2,
                A, S2, cg2, ?_, ?_, hA⟩
              · rw [← ho1, hsplit]
                simp
              · simp only [traverse_json, if_pos]
                rw [show traverse_json g rest level = .ok (P2 ++ S2, cg2) from hgrest]
                simp
          · simp only [traverse_json, if_neg hi] at hrun
            cases hnj : node_json f
                (CategoryNode.mk (some nm) (some u) sh (some q) (some i) none)
                (level + 2) with
            | error e => simp [hnj] at hrun
            | ok augs =>
              cases ht : traverse_json f rest level with
              | error e => simp [hnj, ht] at hrun
              | ok t =>
                simp only [hnj, ht, Except.ok.injEq, Prod.mk.injEq] at hrun
                obtain ⟨ho1, ho2⟩ := hrun
                obtain ⟨P2, A, S2, cg2, hsplit, hgrest, hA⟩ :=
                  ihr level t.1 t.2 hoccR hagR (by rw [ht])
                refine ⟨(FlatRecord.cat nm u (sh.getD 99999) q (level + 1) i :: augs) ++ P2,
                  A, S2,
                  CategoryNode.mk (some nm) (some u) sh (some q) (some i) none :: cg2,
                  ?_, ?_, hA⟩
                · rw [← ho1, hsplit]
                  simp
                · simp only [traverse_json, if_neg hi]
                  rw [node_json_congr hgc (level + 2), hnj,
                    show traverse_json g rest level = .ok (P2 ++ S2, cg2) from hgrest]
                  simp

/--
Claim C1: for every input tree, the output sequence of the flattening
run, restricted to non-augmented records, is exactly the pre-order
traversal of the well-formed nodes the walk visits, in the input child
ordering (per the spec data-model invariant, a node missing a required
field is skipped together with its whole subtree, so the visited
well-formed nodes are those whose ancestors are all well-formed).  The
run is entered at level -1 as process_catalogue does.
-/
theorem claim_C1 (fetch : CategoryNode → FetchResult)
    (tree : List CategoryNode) (out : List FlatRecord × List CategoryNode)
    (hrun : process_catalogue fetch tree = .ok out) :
    out.1.filter FlatRecord.isCat = preorderFlat tree (-1) :=
  traverse_filter_eq_preorder fetch tree (-1) out hrun

/--
Witness for claim C1 at a concrete two-node tree whose leaf carries a
category facet with one well-formed item.
-/
theorem claim_C1_witness :
    ([FlatRecord.cat "A" "/a" 1 "q1" 0 1, FlatRecord.cat "B" "/b" 2 "q2" 1 2,
        FlatRecord.aug "B" "X" 2 9].filter FlatRecord.isCat) =
      preorderFlat wbTreeAB (-1) :=
  claim_C1 wbFetchCat wbTreeAB
    ([FlatRecord.cat "A" "/a" 1 "q1" 0 1, FlatRecord.cat "B" "/b" 2 "q2" 1 2,
        FlatRecord.aug "B" "X" 2 9], [wbLeafB])
    (by simp [process_catalogue, traverse_json, node_json, facetRecords,
      facetItemRecord, wbTreeAB, wbNodeA, wbLeafB, wbFetchCat, wbRespCat,
      wbFilterCat, wbItemBad, wbItemX, CategoryNode.name, CategoryNode.shard,
      CategoryNode.query])

/--
Claim C2: on every completing run, the non-augmented portion of the
output has exactly one record per visited well-formed node, and the
sequence of level fields of those records equals the sequence of node
depths counted from the synthetic root, the direct children of the root
at depth 0 and every nesting level adding exactly 1.
-/
theorem claim_C2 (fetch : CategoryNode → FetchResult)
    (tree : List CategoryNode) (out : List FlatRecord × List CategoryNode)
    (hrun : process_catalogue fetch tree = .ok out) :
    (out.1.filter FlatRecord.isCat).length = wfCount tree ∧
    (out.1.filter FlatRecord.isCat).map FlatRecord.level =
      (nodeDepths tree 0).map Int.ofNat := by
  have h := traverse_filter_eq_preorder fetch tree (-1) out hrun
  exact ⟨by rw [h]; exact preorderFlat_length tree (-1),
    by rw [h]; exact preorderFlat_levels_root tree⟩

/-- Witness for claim C2 at the concrete two-node tree. -/
theorem claim_C2_witness :
    ([FlatRecord.cat "A" "/a" 1 "q1" 0 1, FlatRecord.cat "B" "/b" 2 "q2" 1 2,
        FlatRecord.aug "B" "X" 2 9].filter FlatRecord.isCat).length =
      wfCount wbTreeAB ∧
    ([FlatRecord.cat "A" "/a" 1 "q1" 0 1, FlatRecord.cat "B" "/b" 2 "q2" 1 2,
        FlatRecord.aug "B" "X" 2 9].filter FlatRecord.isCat).map FlatRecord.level =
      (nodeDepths wbTreeAB 0).map Int.ofNat :=
  claim_C2 wbFetchCat wbTreeAB
    ([FlatRecord.cat "A" "/a" 1 "q1" 0 1, FlatRecord.cat "B" "/b" 2 "q2" 1 2,
        FlatRecord.aug "B" "X" 2 9], [wbLeafB])
    (by simp [process_catalogue, traverse_json, node_json, facetRecords,
      facetItemRecord, wbTreeAB, wbNodeA, wbLeafB, wbFetchCat, wbRespCat,
      wbFilterCat, wbItemBad, wbItemX, CategoryNode.name, CategoryNode.shard,
      CategoryNode.query])

/--
Claim C3: first conjunct, a node missing a required field (here: name)
contributes no record, its subtree is not visited, and the siblings are
processed exactly as if the node were absent.  Second conjunct, the
divergent part of the claim: the claim and the spec say a missing shard
alone never causes more than the sentinel 99999 being used, but for a
well-formed childless node without a shard key and with a non-excluded
id the code reads the raw shard key in the node_json URL f-string and
the uncaught KeyError aborts the entire run: the engine returns an
error, with no record at all, instead of continuing with the sentinel.
-/
theorem claim_C3 :
    (∀ (fetch : CategoryNode → FetchResult) (pre post : List CategoryNode)
      (level : Int),
      traverse_json fetch (pre ++ wbNodeNoName :: post) level =
        traverse_json fetch (pre ++ post) level) ∧
    (∀ (fetch : CategoryNode → FetchResult) (level : Int),
      traverse_json fetch [wbLeafNoShard] level = .error ()) := by
  constructor
  · intro fetch pre post level
    rw [traverse_append fetch pre (wbNodeNoName :: post) level,
      traverse_append fetch pre post level,
      traverse_cons_malformed
        (show wfFields wbNodeNoName = none by
          simp [wbNodeNoName, wfFields, CategoryNode.name])
        fetch post level]
  · intro fetch level
    simp [traverse_json, node_json, wbLeafNoShard, CategoryNode.name,
      CategoryNode.shard, CategoryNode.query]

/--
Claim C9: the staleness test of download_current_catalogue is inverted.
The cache should be refreshed when it is from an earlier calendar day,
but the code refetches only when the file date is in the future: a cache
one day older than the run date is kept (first conjunct, the failing
input), a file dated after the run date is refetched, an absent cache is
fetched, and a same-day cache is reused.
-/
theorem claim_C9 :
    shouldRedownload true 100 101 = false ∧
    shouldRedownload true 102 101 = true ∧
    shouldRedownload false 100 101 = true ∧
    shouldRedownload true 101 101 = false := by
  decide

/--
Claim C10: a node whose childs key is present but maps to an empty list
yields exactly one record and never triggers augmentation, whatever its
id: the augmentation condition of the code requires the childs key to be
absent, not merely the child list to be empty.
-/
theorem claim_C10 (fetch : CategoryNode → FetchResult) (L : Int)
    (nm u : String) (sh : Option Int) (q : String) (i : Int) :
    traverse_json fetch
        [CategoryNode.mk (some nm) (some u) sh (some q) (some i) (some [])] L =
      .ok ([FlatRecord.cat nm u (sh.getD 99999) q (L + 1) i], []) := by
  simp [traverse_json]

/--
Claim C4: when the first facet group of a successful facet response
carries the category-type label, the augmentation emits, in item order,
one record per item having both id and name, with parent_name the leaf
name and the level it was handed, skipping an item missing id or name
individually (conjuncts one to three); and the walk hands the
augmentation level L + 2 for a leaf whose own record sits at level
L + 1, so every augmented record sits exactly one level below its leaf
(conjunct four).  Augmented records carry no url, shard or query field
by construction of FlatRecord.aug.
-/
theorem claim_C4 (fetch : CategoryNode → FetchResult) (c : CategoryNode)
    (lvl : Int) (nm : String) (s : Int) (q : String) (resp : FacetResponse)
    (d : FacetData) (flt : FacetFilter) (fs : List FacetFilter)
    (its : List FacetItem)
    (hn : c.name = some nm) (hs : c.shard = some s) (hq : c.query = some q)
    (hf : fetch c = .ok resp) (hd : resp.data = some d)
    (hfl : d.filters = some (flt :: fs)) (hlab : flt.name = some "Категория")
    (hits : flt.items = some its) :
    node_json fetch c lvl = .ok (its.filterMap (facetItemRecord nm lvl)) ∧
    (∀ (n2 : String) (i2 : Int),
      facetItemRecord nm lvl ⟨some n2, some i2⟩ =
        some (FlatRecord.aug nm n2 lvl i2)) ∧
    (∀ it : FacetItem, it.name = none ∨ it.id = none →
      facetItemRecord nm lvl it = none) ∧
    (∀ (nm2 u2 : String) (s2 : Int) (q2 : String) (i2 L : Int),
      i2 ≠ 130090 →
      traverse_json fetch
          [CategoryNode.mk (some nm2) (some u2) (some s2) (some q2) (some i2) none] L =
        .ok (FlatRecord.cat nm2 u2 s2 q2 (L + 1) i2 ::
          facetRecords nm2 (L + 2)
            (fetch (CategoryNode.mk (some nm2) (some u2) (some s2) (some q2) (some i2) none)),
          [CategoryNode.mk (some nm2) (some u2) (some s2) (some q2) (some i2) none])) := by
  refine ⟨?_, ?_, ?_, ?_⟩
  · simp [node_json, hn, hs, hq, hf, facetRecords, hd, hfl, hlab, hits]
  · intro n2 i2
    simp [facetItemRecord]
  · intro it hit
    obtain ⟨inm, iid⟩ := it
    rcases hit with h | h <;> simp at h <;> subst h
    · simp [facetItemRecord]
    · cases inm <;> simp [facetItemRecord]
  · intro nm2 u2 s2 q2 i2 L hi2
    simp [traverse_json, hi2, node_json, CategoryNode.name, CategoryNode.shard,
      CategoryNode.query]

/--
Witness for claim C4: the category-labelled response with one malformed
and one well-formed item produces exactly the record of the well-formed
item.
-/
theorem claim_C4_witness :
    node_json wbFetchCat wbLeafB 2 = .ok [FlatRecord.aug "B" "X" 2 9] :=
  (claim_C4 wbFetchCat wbLeafB 2 "B" 2 "q2" wbRespCat ⟨some [wbFilterCat]⟩
    wbFilterCat [] [wbItemBad, wbItemX] rfl rfl rfl rfl rfl rfl rfl rfl).1

/--
Claim C5: the augmentation returns an empty record list and no error
when the facet request reports a transient disconnection (conjunct one),
when the response cannot be decoded as the expected content type
(conjunct two), when the first facet group label differs from the
category label (conjunct three), or when the response has no facet
groups (conjunct four); and the traversal of the remaining nodes
continues unaffected, the leaf contributing only its own record
(conjunct five).
-/
theorem claim_C5 (fetch : CategoryNode → FetchResult) (c : CategoryNode)
    (nm : String) (s : Int) (q : String) (lvl : Int)
    (hn : c.name = some nm) (hs : c.shard = some s) (hq : c.query = some q) :
    (fetch c = .disconnected → node_json fetch c lvl = .ok []) ∧
    (fetch c = .contentTypeError → node_json fetch c lvl = .ok []) ∧
    (∀ (resp : FacetResponse) (d : FacetData) (flt : FacetFilter)
      (fs : List FacetFilter) (lbl : String),
      fetch c = .ok resp → resp.data = some d → d.filters = some (flt :: fs) →
      flt.name = some lbl → lbl ≠ "Категория" →
      node_json fetch c lvl = .ok []) ∧
    (∀ (resp : FacetResponse) (d : FacetData),
      fetch c = .ok resp → resp.data = some d → d.filters = some [] →
      node_json fetch c lvl = .ok []) ∧
    (∀ (nm2 u2 : String) (s2 : Int) (q2 : String) (i2 L : Int)
      (rest : List CategoryNode),
      i2 ≠ 130090 →
      fetch (CategoryNode.mk (some nm2) (some u2) (some s2) (some q2) (some i2) none) =
        .disconnected →
      traverse_json fetch
          (CategoryNode.mk (some nm2) (some u2) (some s2) (some q2) (some i2) none :: rest) L =
        match traverse_json fetch rest L with
        | .error e => .error e
        | .ok t =>
          .ok (FlatRecord.cat nm2 u2 s2 q2 (L + 1) i2 :: t.1,
            CategoryNode.mk (some nm2) (some u2) (some s2) (some q2) (some i2) none :: t.2)) := by
  refine ⟨?_, ?_, ?_, ?_, ?_⟩
  · intro hfc
    simp [node_json, hn, hs, hq, hfc, facetRecords]
  · intro hfc
    simp [node_json, hn, hs, hq, hfc, facetRecords]
  · intro resp d flt fs lbl hfc hd hfl hlab hne
    simp [node_json, hn, hs, hq, hfc, facetRecords, hd, hfl, hlab, hne]
  · intro resp d hfc hd hfl
    simp [node_json, hn, hs, hq, hfc, facetRecords, hd, hfl]
  · intro nm2 u2 s2 q2 i2 L rest hi2 hfc
    simp only [traverse_json, if_neg hi2]
    have hnj : node_json fetch
        (CategoryNode.mk (some nm2) (some u2) (some s2) (some q2) (some i2) none)
        (L + 2) = .ok [] := by
      simp [node_json, CategoryNode.name, CategoryNode.shard,
        CategoryNode.query, hfc, facetRecords]
    rw [hnj]
    cases traverse_json fetch rest L <;> simp

/--
Witness for claim C5: a disconnected facet request at the concrete leaf
yields no augmented record and no error.
-/
theorem claim_C5_witness :
    node_json wbFetchDisc wbLeafB 2 = .ok [] :=
  (claim_C5 wbFetchDisc wbLeafB "B" 2 "q2" 2 rfl rfl rfl).1 rfl

/--
Claim C6: a well-formed childless node whose id equals the excluded
redirect id 130090 produces exactly one record, its own flat entry, and
no augmentation call, its trace being empty (conjunct one); every other
well-formed childless node with a shard key triggers exactly one
augmentation call, its trace being the node alone (conjunct two).
-/
theorem claim_C6 :
    (∀ (fetch : CategoryNode → FetchResult) (L : Int) (nm u : String)
      (sh : Option Int) (q : String),
      traverse_json fetch
          [CategoryNode.mk (some nm) (some u) sh (some q) (some 130090) none] L =
        .ok ([FlatRecord.cat nm u (sh.getD 99999) q (L + 1) 130090], [])) ∧
    (∀ (fetch : CategoryNode → FetchResult) (L : Int) (nm u : String)
      (s : Int) (q : String) (i : Int), i ≠ 130090 →
      traverse_json fetch
          [CategoryNode.mk (some nm) (some u) (some s) (some q) (some i) none] L =
        .ok (FlatRecord.cat nm u s q (L + 1) i ::
          facetRecords nm (L + 2)
            (fetch (CategoryNode.mk (some nm) (some u) (some s) (some q) (some i) none)),
          [CategoryNode.mk (some nm) (some u) (some s) (some q) (some i) none])) := by
  constructor
  · intro fetch L nm u sh q
    simp [traverse_json]
  · intro fetch L nm u s q i hi
    simp [traverse_json, hi, node_json, CategoryNode.name, CategoryNode.shard,
      CategoryNode.query]

/--
Witness for claim C6: the excluded redirect leaf produces one record and
an empty trace, the ordinary leaf produces its record and a one-call
trace.
-/
theorem claim_C6_witness :
    traverse_json wbFetchDisc [wbLeafRedirect] 0 =
      .ok ([FlatRecord.cat "R" "/r" 7 "qr" 1 130090], []) ∧
    traverse_json wbFetchDisc [wbLeafB] 0 =
      .ok ([FlatRecord.cat "B" "/b" 2 "q2" 1 2], [wbLeafB]) :=
  ⟨claim_C6.1 wbFetchDisc 0 "R" "/r" (some 7) "qr",
    claim_C6.2 wbFetchDisc 0 "B" "/b" 2 "q2" 2 (by decide)⟩

/--
Claim C7: fix a tree and a well-formed childless leaf with a shard key
and a non-excluded id that the walk visits exactly once; a second run
whose fetcher reports a transient disconnection at exactly that leaf and
agrees with the first fetcher on every other visited node produces the
same records except that the augmented block of that leaf is absent:
the first output splits as P ++ A ++ S with A only augmented records of
that leaf, and the second output is P ++ S, every other record identical
and in the same relative order.
-/
theorem claim_C7 (f g : CategoryNode → FetchResult)
    (tree : List CategoryNode) (nm0 u0 : String) (s0 : Int) (q0 : String)
    (i0 : Int) (o1 : List FlatRecord) (o2 : List CategoryNode)
    (hi0 : i0 ≠ 130090)
    (hocc : occursOnce
      (CategoryNode.mk (some nm0) (some u0) (some s0) (some q0) (some i0) none)
      (vNodes tree))
    (hagree : ∀ c ∈ vNodes tree,
      c ≠ CategoryNode.mk (some nm0) (some u0) (some s0) (some q0) (some i0) none →
        g c = f c)
    (hg0 : g (CategoryNode.mk (some nm0) (some u0) (some s0) (some q0) (some i0) none) =
      .disconnected)
    (hrun : process_catalogue f tree = .ok (o1, o2)) :
    ∃ P A S callsG,
      o1 = P ++ A ++ S ∧
      process_catalogue g tree = .ok (P ++ S, callsG) ∧
      ∀ r ∈ A, ∃ n2 i2 lv, r = FlatRecord.aug nm0 n2 lv i2 :=
  traverse_inject_one f g nm0 u0 s0 q0 i0 _ rfl hi0 hg0 tree (-1) o1 o2
    hocc hagree hrun

/--
Witness for claim C7: injecting a disconnection at the leaf of the
concrete two-node tree removes exactly its augmented record.
-/
theorem claim_C7_witness :
    ∃ P A S callsG,
      [FlatRecord.cat "A" "/a" 1 "q1" 0 1, FlatRecord.cat "B" "/b" 2 "q2" 1 2,
        FlatRecord.aug "B" "X" 2 9] = P ++ A ++ S ∧
      process_catalogue wbFetchInj wbTreeAB = .ok (P ++ S, callsG) ∧
      ∀ r ∈ A, ∃ n2 i2 lv, r = FlatRecord.aug "B" n2 lv i2 :=
  claim_C7 wbFetchCat wbFetchInj wbTreeAB "B" "/b" 2 "q2" 2
    [FlatRecord.cat "A" "/a" 1 "q1" 0 1, FlatRecord.cat "B" "/b" 2 "q2" 1 2,
      FlatRecord.aug "B" "X" 2 9] [wbLeafB]
    (by decide)
    (by
      rw [show vNodes wbTreeAB = [wbNodeA, wbLeafB] from by
        simp [vNodes, preorderV, wbTreeAB, wbNodeA, wbLeafB]]
      refine ⟨[wbNodeA], [], rfl, ?_, by simp⟩
      simp [wbNodeA, wbLeafB])
    (by
      rw [show vNodes wbTreeAB = [wbNodeA, wbLeafB] from by
        simp [vNodes, preorderV, wbTreeAB, wbNodeA, wbLeafB]]
      intro c hc hne
      rcases List.mem_cons.mp hc with rfl | hc2
      · simp [wbFetchInj, wbFetchCat, wbNodeA, CategoryNode.id]
      · rcases List.mem_singleton.mp hc2 with rfl
        exact absurd rfl hne)
    (by simp [wbFetchInj, CategoryNode.id])
    (by simp [process_catalogue, traverse_json, node_json, facetRecords,
      facetItemRecord, wbTreeAB, wbNodeA, wbLeafB, wbFetchCat, wbRespCat,
      wbFilterCat, wbItemBad, wbItemX, CategoryNode.name, CategoryNode.shard,
      CategoryNode.query])

/--
Claim C8: the engine is deterministic; its output is a function of the
input tree and of the values the stubbed fetcher takes on the visited
nodes, so two runs over the same tree with fetchers agreeing there
produce identical output, record for record.
-/
theorem claim_C8 (f g : CategoryNode → FetchResult)
    (tree : List CategoryNode)
    (hagree : ∀ c ∈ vNodes tree, f c = g c) :
    process_catalogue f tree = process_catalogue g tree :=
  traverse_fetch_congr f g tree hagree (-1)

/--
Witness for claim C8: two syntactically different stubs agreeing on the
visited nodes of the concrete tree give identical runs.
-/
theorem claim_C8_witness :
    process_catalogue wbFetchCat wbTreeAB =
      process_catalogue wbFetchCat2 wbTreeAB :=
  claim_C8 wbFetchCat wbFetchCat2 wbTreeAB
    (by
      rw [show vNodes wbTreeAB = [wbNodeA, wbLeafB] from by
        simp [vNodes, preorderV, wbTreeAB, wbNodeA, wbLeafB]]
      intro c hc
      rcases List.mem_cons.mp hc with rfl | hc2
      · simp [wbFetchCat, wbFetchCat2, wbNodeA, CategoryNode.id]
      · rcases List.mem_singleton.mp hc2 with rfl
        simp [wbFetchCat, wbFetchCat2, wbLeafB, CategoryNode.id])

end WBScraper
